import Mathlib

/-
Shallow embedding of the Melody-Generator-Heroku repository
(src/preprocessing.py and src/app.py) and proofs about it.

Modelling conventions:
* music21 note/rest events are modelled as `Event`: a pitch-or-rest together
  with a quarter-length duration.  Durations (Python floats holding exact
  dyadic values such as 0.25, 0.5, ...) are modelled as rationals `ℚ`.
* The space-joined token strings produced by `encode_song` (and consumed by
  `create_mapping`, `convert_songs_to_int`, `generate_melody`, `save_melody`)
  are modelled as lists of `Token`.  The four token shapes of the pipeline
  ("r", "_", "/" and the decimal string of a MIDI number) have pairwise
  distinct string forms, so the list-of-tokens view is faithful to the
  whitespace-split of the joined string.
* `create_single_file_dataset` manipulates raw characters (the `[:-1]` slice),
  so it is embedded at character level: a Python `str` is a `List Char`.
* File I/O (reading the mapping JSON, writing the dataset files) is modelled
  by passing the stored value as an explicit argument or returning it.
* `np.random.choice` and `model.predict` are modelled as oracle parameters,
  with the library guarantee on `np.random.choice` (the returned index ranges
  over the probability vector) taken as a hypothesis where needed.
* Python `int(x)` on a float truncates toward zero: modelled by `pytrunc`
  on `ℚ`.  Python `xs[-k:]` is modelled by `pySliceLast` (including the
  `k = 0` corner case, where `xs[-0:]` is the whole list).
-/

set_option autoImplicit false

namespace MelodyGen

/-- A pitched note (by MIDI number, `event.pitch.midi`) or a rest. -/
inductive PitchOrRest where
  | note (midi : ℤ)
  | rest
  deriving DecidableEq, Repr

/-- A flattened music21 note/rest event: pitch-or-rest plus quarter-length
duration (`event.duration.quarterLength`). -/
structure Event where
  pitch : PitchOrRest
  duration : ℚ
  deriving DecidableEq, Repr

/-- One whitespace-delimited token of the encoded corpus: a MIDI number,
the rest marker "r", the hold marker "_" or the song boundary marker "/".
Their string forms are pairwise distinct, so this is a faithful model of the
token strings. -/
inductive Token where
  | note (midi : ℤ)
  | rest
  | hold
  | boundary
  deriving DecidableEq, Repr

/-- `SEQUENCE_LENGTH = 64` from preprocessing.py. -/
def SEQUENCE_LENGTH : ℕ := 64

/-- `ACCEPTABLE_DURATIONS` from preprocessing.py, as exact rationals. -/
def ACCEPTABLE_DURATIONS : List ℚ :=
  [1/4, 1/2, 3/4, 1, 3/2, 2, 3, 4]

/-- Python `int(q)` for a rational `q`: truncation toward zero.  On a rational
in lowest terms this is truncating division of numerator by denominator. -/
def pytrunc (q : ℚ) : ℤ :=
  Int.tdiv q.num (q.den : ℤ)

/-- `has_acceptable_durations(song, acceptable_durations)` from
preprocessing.py.  Faithful quirk: the body tests membership in the *global*
`ACCEPTABLE_DURATIONS`, ignoring the `acceptable_durations` parameter. -/
def has_acceptable_durations (song : List Event) (acceptable_durations : List ℚ) : Bool :=
  match song with
  | [] => true
  | e :: rest =>
    if e.duration ∈ ACCEPTABLE_DURATIONS then
      has_acceptable_durations rest acceptable_durations
    else
      false

/-- The onset symbol `encode_song` emits for an event: `event.pitch.midi`
for a note, "r" for a rest. -/
def onsetSymbol (e : Event) : Token :=
  match e.pitch with
  | .note m => Token.note m
  | .rest => Token.rest

/-- `steps = int(event.duration.quarterLength / time_step)` from
`encode_song`, as the (nonnegative) iteration count of `range(steps)`. -/
def stepsNat (e : Event) (time_step : ℚ) : ℕ :=
  (pytrunc (e.duration / time_step)).toNat

/-- The tokens `encode_song` emits for one event: the body of the
`for step in range(steps)` loop (onset symbol at step 0, "_" afterwards). -/
def encodeEvent (time_step : ℚ) (e : Event) : List Token :=
  (List.range (stepsNat e time_step)).map
    (fun step => if step = 0 then onsetSymbol e else Token.hold)

/-- `encode_song(song, time_step=0.25)` from preprocessing.py, at token-list
level (the final `" ".join` is the list-of-tokens view itself). -/
def encode_song_tokens (song : List Event) (time_step : ℚ) : List Token :=
  song.foldl (fun acc e => acc ++ encodeEvent time_step e) []

/-- The body of the `preprocess` loop for one song index: skip the song when
`has_acceptable_durations` rejects it, otherwise transpose and encode (with
the default `time_step = 0.25`), pairing the result with the save index `i`.
The music21 `transpose` is an external-library operation, passed as an
oracle. -/
def preprocessFrom (transposeFn : List Event → List Event) :
    ℕ → List (List Event) → List (ℕ × List Token)
  | _, [] => []
  | i, song :: rest =>
    if has_acceptable_durations song ACCEPTABLE_DURATIONS then
      (i, encode_song_tokens (transposeFn song) (1/4)) :: preprocessFrom transposeFn (i + 1) rest
    else
      preprocessFrom transposeFn (i + 1) rest

/-- `preprocess(dataset_path)` from preprocessing.py, with the loaded songs
and the transposition oracle as arguments and the written files as the
result (index paired with encoded song). -/
def preprocess (transposeFn : List Event → List Event) (songs : List (List Event)) :
    List (ℕ × List Token) :=
  preprocessFrom transposeFn 0 songs

/-- `save_melody`'s event construction: "r" becomes a Rest, anything else
goes through `int(start_symbol)` and becomes a Note; `int` on "_" or "/"
raises ValueError, modelled as `none`. -/
def m21Event (start_symbol : Token) (quarter_length : ℚ) : Option Event :=
  match start_symbol with
  | Token.rest => some ⟨PitchOrRest.rest, quarter_length⟩
  | Token.note m => some ⟨PitchOrRest.note m, quarter_length⟩
  | Token.hold => none
  | Token.boundary => none

/-- The loop of `save_melody(melody, step_duration=0.25, ...)` from app.py.
State: the pending `start_symbol` (None before the first onset) and the
`step_counter`.  The Python guard `symbol != "_" or i + 1 == len(melody)`
becomes `sym ≠ hold ∨ rest = []`.  A flush only happens (and only resets the
counter) when `start_symbol is not None`. -/
def saveMelodyGo (step_duration : ℚ) (start_symbol : Option Token) (step_counter : ℕ) :
    List Token → Option (List Event)
  | [] => some []
  | sym :: rest =>
    if sym ≠ Token.hold ∨ rest = [] then
      match start_symbol with
      | none => saveMelodyGo step_duration (some sym) step_counter rest
      | some s =>
        match m21Event s (step_duration * (step_counter : ℚ)) with
        | none => none
        | some ev =>
          (saveMelodyGo step_duration (some sym) 1 rest).map (fun evs => ev :: evs)
    else
      saveMelodyGo step_duration start_symbol (step_counter + 1) rest

/-- `save_melody(melody, step_duration=0.25, ...)` from app.py: the stream of
note/rest events appended (the midi write is I/O, modelled by returning the
stream).  `none` models the ValueError of `int("_")` / `int("/")`. -/
def save_melody (melody : List Token) (step_duration : ℚ) : Option (List Event) :=
  saveMelodyGo step_duration none 1 melody

/-- Expected result of rendering an encoded song with `save_melody` (the
amended round-trip statement): every event except the last is reconstructed
with its pitch and with quarter length `t * steps` (`steps` the truncated
step count of the event); the final event is reconstructed one time step
short (`t * (steps - 1)`) when it spans at least two steps, and is dropped
entirely when it spans exactly one step. -/
def decodeExpected (t : ℚ) : List Event → List Event
  | [] => []
  | e :: rest =>
    match rest with
    | [] =>
      if 2 ≤ stepsNat e t then
        [Event.mk e.pitch (t * ((stepsNat e t - 1 : ℕ) : ℚ))]
      else []
    | _ :: _ =>
      Event.mk e.pitch (t * ((stepsNat e t : ℕ) : ℚ)) :: decodeExpected t rest

/-- `new_song_delimeter = "/ " * sequence_length` from
`create_single_file_dataset`, at character level. -/
def new_song_delimeter (sequence_length : ℕ) : List Char :=
  (List.replicate sequence_length ['/', ' ']).flatten

/-- `create_single_file_dataset(dataset_path, dataset_file_path,
sequence_length)` from preprocessing.py, at character level: the loaded file
contents are the `files` argument, the written/returned string is the result.
The `songs[:-1]` slice is `dropLast`, which like Python gives "" on "". -/
def create_single_file_dataset (files : List (List Char)) (sequence_length : ℕ) :
    List Char :=
  (files.foldl
      (fun songs song => songs ++ song ++ [' '] ++ new_song_delimeter sequence_length)
      []).dropLast

/-- `create_mapping(songs, mapping_path)` from preprocessing.py.  Python's
`vocab = list(set(songs))` enumerates the distinct tokens in unspecified
order; `List.dedup` is one such enumeration.  `enumerate(vocab)` assigns ids
`0, 1, ...`; the JSON dump is I/O, modelled by returning the mapping. -/
def create_mapping (songs : List Token) : List (Token × ℕ) :=
  (songs.dedup).enum.map (fun p => (p.2, p.1))

/-- Python dict lookup `mappings[symbol]` on the mapping association list
(keys are unique, so first match is the match); `none` models KeyError. -/
def dictGet (mappings : List (Token × ℕ)) (symbol : Token) : Option ℕ :=
  match mappings with
  | [] => none
  | p :: rest => if p.1 = symbol then some p.2 else dictGet rest symbol

/-- `convert_songs_to_int(songs)` from preprocessing.py, with the mapping
loaded from `MAPPING_PATH` passed as an argument.  The loop appends
`mappings[symbol]` per token; the first missing token raises KeyError,
modelled as `none`. -/
def convert_songs_to_int (mappings : List (Token × ℕ)) (songs : List Token) :
    Option (List ℕ) :=
  match songs with
  | [] => some []
  | s :: rest =>
    match dictGet mappings s with
    | none => none
    | some v => (convert_songs_to_int mappings rest).map (fun ids => v :: ids)

/-- Errors `generate_melody` can raise: KeyError from `self._mappings[symbol]`
on the seed, IndexError from `[k for k, v in ... if v == output_int][0]`
when no key maps to the sampled id. -/
inductive GenError where
  | keyError (symbol : Token)
  | indexError
  deriving DecidableEq, Repr

/-- `self._start_symbols = ["/"] * SEQUENCE_LENGTH` from app.py. -/
def start_symbols : List Token :=
  List.replicate SEQUENCE_LENGTH Token.boundary

/-- The seed-mapping list comprehension
`[self._mappings[symbol] for symbol in seed]` of `generate_melody`: evaluated
left to right, the first unmapped token raises KeyError. -/
def seedToInts (mappings : List (Token × ℕ)) : List Token → Except GenError (List ℕ)
  | [] => Except.ok []
  | t :: rest =>
    match dictGet mappings t with
    | none => Except.error (GenError.keyError t)
    | some v => (seedToInts mappings rest).map (fun ids => v :: ids)

/-- Python `xs[-k:]`, including the `k = 0` corner (`xs[-0:]` is all of
`xs`). -/
def pySliceLast {α : Type} (k : ℕ) (xs : List α) : List α :=
  if k = 0 then xs else xs.drop (xs.length - k)

/-- The reverse lookup `[k for k, v in self._mappings.items() if
v == output_int][0]` of `generate_melody`: the first key whose value is
`output_int`; `none` models the IndexError on an empty comprehension. -/
def revLookup (mappings : List (Token × ℕ)) (value : ℕ) : Option Token :=
  match mappings with
  | [] => none
  | p :: rest => if p.2 = value then some p.1 else revLookup rest value

/-- The sampling loop of `generate_melody`, one iteration per step of
`range(num_steps)`.  The model prediction followed by
`_sample_with_temperature` is the oracle `predict` from the current
(truncated) integer seed to the sampled id.  The sampled id is appended to
the seed before the boundary check; on "/" the loop breaks without touching
the melody, otherwise the decoded symbol is appended to the melody. -/
def genLoop (mappings : List (Token × ℕ)) (predict : List ℕ → ℕ)
    (max_sequence_length : ℕ) :
    ℕ → List ℕ → List Token → Except GenError (List Token)
  | 0, _, melody => Except.ok melody
  | n + 1, seedInts, melody =>
    let s := pySliceLast max_sequence_length seedInts
    let output_int := predict s
    match revLookup mappings output_int with
    | none => Except.error GenError.indexError
    | some output_symbol =>
      if output_symbol = Token.boundary then
        Except.ok melody
      else
        genLoop mappings predict max_sequence_length n
          (s ++ [output_int]) (melody ++ [output_symbol])

/-- `generate_melody(seed, num_steps, max_sequence_length, temperature)` from
app.py.  `seed` is the user's seed, already whitespace-split into tokens
(`seed.split()`); `melody` starts as those tokens; the working seed is the
start symbols followed by the user tokens, mapped to integer ids. -/
def generate_melody (mappings : List (Token × ℕ)) (predict : List ℕ → ℕ)
    (seed : List Token) (num_steps max_sequence_length : ℕ) :
    Except GenError (List Token) :=
  match seedToInts mappings (start_symbols ++ seed) with
  | Except.error e => Except.error e
  | Except.ok seedInts => genLoop mappings predict max_sequence_length num_steps seedInts seed

/-- The temperature-scaled distribution computed inside
`_sample_with_temperature`: `predictions = np.log(probabilities) /
temperature`, then `np.exp(predictions) / np.sum(np.exp(predictions))`
elementwise. -/
noncomputable def tempDist (probabilities : List ℝ) (temperature : ℝ) : List ℝ :=
  let predictions := probabilities.map (fun p => Real.log p / temperature)
  let exps := predictions.map Real.exp
  exps.map (fun e => e / exps.sum)

/-- `_sample_with_temperature(probabilities, temperature)` from app.py.
`np.random.choice(range(len(probabilities)), p=probabilities)` is the oracle
`randChoice`, drawing an index from a probability vector. -/
noncomputable def sample_with_temperature (probabilities : List ℝ) (temperature : ℝ)
    (randChoice : List ℝ → ℕ) : ℕ :=
  randChoice (tempDist probabilities temperature)

/-- Modelled from the spec (section 4.2 "Computes `softmax(log(p)/τ)`"):
the softmax of a vector, for the refinement statement of the sampler. -/
noncomputable def softmaxSpec (xs : List ℝ) : List ℝ :=
  xs.map (fun x => Real.exp x / (xs.map Real.exp).sum)

/-! ### Helper lemmas -/

lemma has_acceptable_durations_true_iff (song : List Event) (acc : List ℚ) :
    has_acceptable_durations song acc = true ↔
      ∀ e ∈ song, e.duration ∈ ACCEPTABLE_DURATIONS := by
  induction song with
  | nil => simp [has_acceptable_durations]
  | cons e rest ih =>
    by_cases h : e.duration ∈ ACCEPTABLE_DURATIONS <;>
      simp [has_acceptable_durations, h, ih]

lemma get?_cons_sub (s : List Event) (rest : List (List Event)) (i j : ℕ) (hlt : i < j) :
    (s :: rest).get? (j - i) = rest.get? (j - (i + 1)) := by
  have : j - i = (j - (i + 1)) + 1 := by omega
  rw [this]
  simp

lemma mem_preprocessFrom (f : List Event → List Event) :
    ∀ (songs : List (List Event)) (i j : ℕ) (enc : List Token),
      (j, enc) ∈ preprocessFrom f i songs ↔
        ∃ s, i ≤ j ∧ songs.get? (j - i) = some s ∧
          has_acceptable_durations s ACCEPTABLE_DURATIONS = true ∧
          enc = encode_song_tokens (f s) (1/4) := by
  intro songs
  induction songs with
  | nil => simp [preprocessFrom]
  | cons s rest ih =>
    intro i j enc
    by_cases hacc : has_acceptable_durations s ACCEPTABLE_DURATIONS = true
    · rw [preprocessFrom, if_pos hacc]
      rw [List.mem_cons, ih, Prod.mk.injEq]
      constructor
      · rintro (⟨hj, henc⟩ | ⟨s', hle, hget, hs', henc⟩)
        · subst hj
          exact ⟨s, le_refl _, by simp, hacc, henc⟩
        · refine ⟨s', by omega, ?_, hs', henc⟩
          rw [get?_cons_sub s rest i j (by omega)]
          exact hget
      · rintro ⟨s', hle, hget, hs', henc⟩
        rcases Nat.eq_or_lt_of_le hle with heq | hlt
        · left
          subst heq
          simp only [Nat.sub_self] at hget
          simp only [List.get?_cons_zero, Option.some.injEq] at hget
          exact ⟨rfl, hget ▸ henc⟩
        · right
          refine ⟨s', by omega, ?_, hs', henc⟩
          rw [get?_cons_sub s rest i j hlt] at hget
          exact hget
    · rw [preprocessFrom, if_neg hacc]
      rw [ih]
      constructor
      · rintro ⟨s', hle, hget, hs', henc⟩
        refine ⟨s', by omega, ?_, hs', henc⟩
        rw [get?_cons_sub s rest i j (by omega)]
        exact hget
      · rintro ⟨s', hle, hget, hs', henc⟩
        rcases Nat.eq_or_lt_of_le hle with heq | hlt
        · exfalso
          subst heq
          simp only [Nat.sub_self] at hget
          simp only [List.get?_cons_zero, Option.some.injEq] at hget
          exact hacc (hget ▸ hs')
        · refine ⟨s', by omega, ?_, hs', henc⟩
          rw [get?_cons_sub s rest i j hlt] at hget
          exact hget

lemma create_mapping_keys (corpus : List Token) :
    (create_mapping corpus).map Prod.fst = corpus.dedup := by
  simp only [create_mapping, List.map_map]
  have : (Prod.fst ∘ fun p : ℕ × Token => (p.2, p.1)) = Prod.snd := rfl
  rw [this, List.enum_map_snd]

lemma create_mapping_values (corpus : List Token) :
    (create_mapping corpus).map Prod.snd = List.range corpus.dedup.length := by
  simp only [create_mapping, List.map_map]
  have : (Prod.snd ∘ fun p : ℕ × Token => (p.2, p.1)) = Prod.fst := rfl
  rw [this, List.enum_map_fst]

lemma dictGet_isSome_iff (mappings : List (Token × ℕ)) (t : Token) :
    (dictGet mappings t).isSome ↔ t ∈ mappings.map Prod.fst := by
  induction mappings with
  | nil => simp [dictGet]
  | cons p rest ih =>
    by_cases h : p.1 = t
    · simp [dictGet, h]
    · rw [dictGet, if_neg h, ih]
      simp only [List.map_cons, List.mem_cons]
      constructor
      · exact Or.inr
      · rintro (hc | hc)
        · exact absurd hc.symm h
        · exact hc

lemma dictGet_eq_none_iff (mappings : List (Token × ℕ)) (t : Token) :
    dictGet mappings t = none ↔ t ∉ mappings.map Prod.fst := by
  rw [← dictGet_isSome_iff, Option.not_isSome_iff_eq_none]

lemma convert_songs_to_int_eq_none_iff (mappings : List (Token × ℕ)) (songs : List Token) :
    convert_songs_to_int mappings songs = none ↔
      ∃ t ∈ songs, dictGet mappings t = none := by
  induction songs with
  | nil => simp [convert_songs_to_int]
  | cons s rest ih =>
    cases h : dictGet mappings s with
    | none => simp [convert_songs_to_int, h]
    | some v =>
      simp only [convert_songs_to_int, h, List.mem_cons]
      rw [Option.map_eq_none', ih]
      constructor
      · rintro ⟨t, ht, hnone⟩
        exact ⟨t, Or.inr ht, hnone⟩
      · rintro ⟨t, ht | ht, hnone⟩
        · rw [ht, h] at hnone
          exact absurd hnone (by simp)
        · exact ⟨t, ht, hnone⟩

lemma convert_songs_to_int_ok (mappings : List (Token × ℕ)) (songs : List Token)
    (h : ∀ t ∈ songs, (dictGet mappings t).isSome) :
    ∃ ids, convert_songs_to_int mappings songs = some ids ∧
      ids.length = songs.length ∧
      ∀ p ∈ songs.zip ids, dictGet mappings p.1 = some p.2 := by
  induction songs with
  | nil => exact ⟨[], rfl, rfl, by simp⟩
  | cons s rest ih =>
    have hs : (dictGet mappings s).isSome := h s (List.mem_cons_self s rest)
    obtain ⟨v, hv⟩ := Option.isSome_iff_exists.mp hs
    obtain ⟨ids, hids, hlen, hzip⟩ := ih (fun t ht => h t (List.mem_cons_of_mem s ht))
    refine ⟨v :: ids, ?_, by simp [hlen], ?_⟩
    · simp [convert_songs_to_int, hv, hids]
    · intro p hp
      rw [List.zip_cons_cons] at hp
      rcases List.mem_cons.mp hp with hp1 | hp2
      · rw [hp1]
        exact hv
      · exact hzip p hp2

lemma seedToInts_keyError_iff (mappings : List (Token × ℕ)) (l : List Token) :
    (∃ t₀, seedToInts mappings l = Except.error (GenError.keyError t₀)) ↔
      ∃ t ∈ l, dictGet mappings t = none := by
  induction l with
  | nil => simp [seedToInts]
  | cons s rest ih =>
    cases h : dictGet mappings s with
    | none =>
      simp only [seedToInts, h, List.mem_cons]
      constructor
      · intro _
        exact ⟨s, Or.inl rfl, h⟩
      · intro _
        exact ⟨s, rfl⟩
    | some v =>
      simp only [seedToInts, h, List.mem_cons]
      constructor
      · rintro ⟨t₀, ht₀⟩
        cases hrest : seedToInts mappings rest with
        | error e =>
          rw [hrest] at ht₀
          have he : e = GenError.keyError t₀ := by
            simpa [Except.map] using ht₀
          obtain ⟨t, ht, hnone⟩ := ih.mp ⟨t₀, by rw [hrest, he]⟩
          exact ⟨t, Or.inr ht, hnone⟩
        | ok ids =>
          rw [hrest] at ht₀
          simp [Except.map] at ht₀
      · rintro ⟨t, ht | ht, hnone⟩
        · rw [ht, h] at hnone
          exact absurd hnone (by simp)
        · obtain ⟨t₀, ht₀⟩ := ih.mpr ⟨t, ht, hnone⟩
          exact ⟨t₀, by rw [ht₀]; rfl⟩

lemma genLoop_error_eq_indexError (mappings : List (Token × ℕ)) (predict : List ℕ → ℕ)
    (maxLen : ℕ) :
    ∀ (n : ℕ) (seedInts : List ℕ) (melody : List Token) (e : GenError),
      genLoop mappings predict maxLen n seedInts melody = Except.error e →
        e = GenError.indexError := by
  intro n
  induction n with
  | zero =>
    intro _ _ _ h
    exact absurd h (by simp [genLoop])
  | succ n ih =>
    intro seedInts melody e h
    simp only [genLoop] at h
    cases hrl : revLookup mappings (predict (pySliceLast maxLen seedInts)) with
    | none =>
      rw [hrl] at h
      simp only [Except.error.injEq] at h
      exact h.symm
    | some sym =>
      simp only [hrl] at h
      by_cases hb : sym = Token.boundary
      · rw [if_pos hb] at h
        exact absurd h (by simp)
      · rw [if_neg hb] at h
        exact ih _ _ e h

lemma seedToInts_error_form (mappings : List (Token × ℕ)) :
    ∀ (l : List Token) (e : GenError),
      seedToInts mappings l = Except.error e → ∃ t, e = GenError.keyError t := by
  intro l
  induction l with
  | nil =>
    intro e h
    exact absurd h (by simp [seedToInts])
  | cons s rest ih =>
    intro e h
    simp only [seedToInts] at h
    cases hd : dictGet mappings s with
    | none =>
      rw [hd] at h
      simp only [Except.error.injEq] at h
      exact ⟨s, h.symm⟩
    | some v =>
      rw [hd] at h
      cases hrest : seedToInts mappings rest with
      | error e2 =>
        rw [hrest] at h
        simp only [Except.map, Except.error.injEq] at h
        exact h ▸ ih e2 hrest
      | ok ids =>
        rw [hrest] at h
        simp [Except.map] at h

lemma dedup_toFinset (l : List Token) : l.dedup.toFinset = l.toFinset := by
  ext a
  simp [List.mem_dedup]

lemma genLoop_ok_structure (mappings : List (Token × ℕ)) (predict : List ℕ → ℕ)
    (maxLen : ℕ) :
    ∀ (n : ℕ) (seedInts : List ℕ) (melody out : List Token),
      genLoop mappings predict maxLen n seedInts melody = Except.ok out →
        ∃ extra, out = melody ++ extra ∧ extra.length ≤ n ∧ Token.boundary ∉ extra := by
  intro n
  induction n with
  | zero =>
    intro seedInts melody out h
    simp only [genLoop, Except.ok.injEq] at h
    exact ⟨[], by simp [h], by simp, by simp⟩
  | succ n ih =>
    intro seedInts melody out h
    simp only [genLoop] at h
    cases hrl : revLookup mappings (predict (pySliceLast maxLen seedInts)) with
    | none =>
      rw [hrl] at h
      exact absurd h (by simp)
    | some sym =>
      simp only [hrl] at h
      by_cases hb : sym = Token.boundary
      · rw [if_pos hb] at h
        simp only [Except.ok.injEq] at h
        exact ⟨[], by simp [h], by simp, by simp⟩
      · rw [if_neg hb] at h
        obtain ⟨extra, hout, hlen, hmem⟩ := ih _ _ _ h
        refine ⟨sym :: extra, by simp [hout], by simpa using hlen, ?_⟩
        simp only [List.mem_cons, not_or]
        exact ⟨fun hc => hb hc.symm, hmem⟩

lemma encodeEvent_eq_cases (e : Event) (t : ℚ) :
    encodeEvent t e =
      if stepsNat e t = 0 then []
      else onsetSymbol e :: List.replicate (stepsNat e t - 1) Token.hold := by
  rw [encodeEvent]
  cases hs : stepsNat e t with
  | zero => simp
  | succ k =>
    rw [if_neg (Nat.succ_ne_zero k), List.range_succ_eq_map, List.map_cons, if_pos rfl,
      List.map_map, Nat.succ_sub_one]
    congr 1
    have : ((fun step => if step = 0 then onsetSymbol e else Token.hold) ∘ Nat.succ) =
        fun _ : ℕ => Token.hold := by
      funext step
      simp
    rw [this, List.map_const', List.length_range]

lemma encodeEvent_length (e : Event) (t : ℚ) :
    (encodeEvent t e).length = stepsNat e t := by
  simp [encodeEvent]

lemma encode_song_tokens_eq_bind (song : List Event) (t : ℚ) :
    encode_song_tokens song t = song.flatMap (encodeEvent t) := by
  suffices h : ∀ acc : List Token,
      song.foldl (fun a e => a ++ encodeEvent t e) acc = acc ++ song.flatMap (encodeEvent t) by
    simpa using h []
  induction song with
  | nil => simp
  | cons e rest ih =>
    intro acc
    simp only [List.foldl_cons, List.flatMap_cons, ih, List.append_assoc]

lemma pytrunc_natCast (k : ℕ) : pytrunc (k : ℚ) = (k : ℤ) := by
  rw [pytrunc, Rat.num_natCast, Rat.den_natCast]
  exact Int.tdiv_one k

lemma whitelist_step_count :
    ∀ d ∈ ACCEPTABLE_DURATIONS, ∃ k : ℕ, 1 ≤ k ∧ d = (k : ℚ) * (1/4) ∧
      pytrunc (d / (1/4)) = (k : ℤ) := by
  have key : ∀ (d : ℚ) (k : ℕ), d / (1/4) = (k : ℚ) → pytrunc (d / (1/4)) = (k : ℤ) := by
    intro d k h
    rw [h, pytrunc_natCast]
  intro d hd
  simp only [ACCEPTABLE_DURATIONS, List.mem_cons, List.not_mem_nil, or_false] at hd
  rcases hd with rfl | rfl | rfl | rfl | rfl | rfl | rfl | rfl
  · exact ⟨1, le_refl 1, by norm_num, key _ 1 (by norm_num)⟩
  · exact ⟨2, by norm_num, by norm_num, key _ 2 (by norm_num)⟩
  · exact ⟨3, by norm_num, by norm_num, key _ 3 (by norm_num)⟩
  · exact ⟨4, by norm_num, by norm_num, key _ 4 (by norm_num)⟩
  · exact ⟨6, by norm_num, by norm_num, key _ 6 (by norm_num)⟩
  · exact ⟨8, by norm_num, by norm_num, key _ 8 (by norm_num)⟩
  · exact ⟨12, by norm_num, by norm_num, key _ 12 (by norm_num)⟩
  · exact ⟨16, by norm_num, by norm_num, key _ 16 (by norm_num)⟩

lemma whitelist_stepsNat_exact (e : Event) (h : e.duration ∈ ACCEPTABLE_DURATIONS) :
    1 ≤ stepsNat e (1/4) ∧ (stepsNat e (1/4) : ℚ) = e.duration / (1/4) := by
  obtain ⟨k, hk1, hdk, hpy⟩ := whitelist_step_count e.duration h
  have hsteps : stepsNat e (1/4) = k := by
    rw [stepsNat, hpy, Int.toNat_natCast]
  refine ⟨hsteps ▸ hk1, ?_⟩
  rw [hsteps, hdk]
  norm_num

/-! ### Claim theorems -/

/-- Claim C4: `has_acceptable_durations` returns False exactly when some
note or rest duration is outside the fixed whitelist, True exactly when all
durations are whitelisted, and `preprocess` transposes/encodes/saves exactly
the accepted scores (each saved under its original index). -/
theorem claim_C4_duration_filter :
    ∀ (song : List Event) (acc : List ℚ),
      (has_acceptable_durations song acc = false ↔
        ∃ e ∈ song, e.duration ∉ ACCEPTABLE_DURATIONS) ∧
      (has_acceptable_durations song acc = true ↔
        ∀ e ∈ song, e.duration ∈ ACCEPTABLE_DURATIONS) ∧
      ∀ (transposeFn : List Event → List Event) (songs : List (List Event))
        (i : ℕ) (enc : List Token),
        ((i, enc) ∈ preprocess transposeFn songs ↔
          ∃ s, songs.get? i = some s ∧
            has_acceptable_durations s ACCEPTABLE_DURATIONS = true ∧
            enc = encode_song_tokens (transposeFn s) (1/4)) := by
  intro song acc
  refine ⟨?_, has_acceptable_durations_true_iff song acc, ?_⟩
  · rw [← Bool.not_eq_true, has_acceptable_durations_true_iff song acc]
    push_neg
    simp
  · intro f songs i enc
    rw [preprocess, mem_preprocessFrom f songs 0 i enc]
    simp

/-- Claim C5: `create_mapping` maps exactly the distinct tokens of its corpus
(keys without duplicates, key set equal to the corpus token set) to the
pairwise-distinct integer ids `0, ..., vocabulary size - 1`: a bijection from
tokens to dense ids. -/
theorem claim_C5_mapping_bijection :
    ∀ corpus : List Token,
      ((create_mapping corpus).map Prod.fst).toFinset = corpus.toFinset ∧
      ((create_mapping corpus).map Prod.fst).Nodup ∧
      (create_mapping corpus).map Prod.snd = List.range corpus.dedup.length := by
  intro corpus
  refine ⟨?_, ?_, create_mapping_values corpus⟩
  · rw [create_mapping_keys, dedup_toFinset]
  · rw [create_mapping_keys]
    exact List.nodup_dedup corpus

/-- Claim C6: every token of a corpus is a key of the mapping built by
`create_mapping` from that same corpus, so `convert_songs_to_int` under that
mapping succeeds on every token (no KeyError is reachable) and returns one
integer id per token, in order. -/
theorem claim_C6_convert_total :
    ∀ corpus : List Token,
      (∀ t ∈ corpus, ∃ v, dictGet (create_mapping corpus) t = some v) ∧
      ∃ ids, convert_songs_to_int (create_mapping corpus) corpus = some ids ∧
        ids.length = corpus.length ∧
        ∀ p ∈ corpus.zip ids, dictGet (create_mapping corpus) p.1 = some p.2 := by
  intro corpus
  have hkeys : ∀ t ∈ corpus, (dictGet (create_mapping corpus) t).isSome := by
    intro t ht
    rw [dictGet_isSome_iff, create_mapping_keys, List.mem_dedup]
    exact ht
  refine ⟨?_, convert_songs_to_int_ok _ _ hkeys⟩
  intro t ht
  exact Option.isSome_iff_exists.mp (hkeys t ht)

/-- Claim C8: unmapped tokens raise lookup failures, and only they do:
`convert_songs_to_int` fails (KeyError, modelled `none`) iff some corpus
token is not a mapping key, and `generate_melody` raises a KeyError iff some
token of the start-symbol-prefixed seed is not a mapping key; both failures
propagate to the caller as the function's result (no recovery path exists in
the code). -/
theorem claim_C8_unmapped_token_failures :
    ∀ mappings : List (Token × ℕ),
      (∀ corpus : List Token,
        (convert_songs_to_int mappings corpus = none ↔
          ∃ t ∈ corpus, dictGet mappings t = none)) ∧
      ∀ (predict : List ℕ → ℕ) (seed : List Token) (num_steps max_sequence_length : ℕ),
        ((∃ t₀, generate_melody mappings predict seed num_steps max_sequence_length =
            Except.error (GenError.keyError t₀)) ↔
          ∃ t ∈ start_symbols ++ seed, dictGet mappings t = none) := by
  intro mappings
  refine ⟨convert_songs_to_int_eq_none_iff mappings, ?_⟩
  intro predict seed num_steps maxLen
  rw [generate_melody]
  cases hsi : seedToInts mappings (start_symbols ++ seed) with
  | error e =>
    obtain ⟨t, ht⟩ := seedToInts_error_form mappings _ e hsi
    subst ht
    rw [← seedToInts_keyError_iff]
    constructor
    · intro _
      exact ⟨t, hsi⟩
    · intro _
      exact ⟨t, by simp⟩
  | ok seedInts =>
    rw [← seedToInts_keyError_iff]
    constructor
    · rintro ⟨t₀, ht₀⟩
      have := genLoop_error_eq_indexError mappings predict maxLen num_steps seedInts seed
        (GenError.keyError t₀) ht₀
      exact absurd this (by simp)
    · rintro ⟨t₀, ht₀⟩
      rw [ht₀] at hsi
      exact absurd hsi (by simp)

/-- Claim C3 counterexample: the claim asserts that *every* note/rest event
emits exactly one onset token (followed by hold tokens).  The rest event
with quarter length 1/10 at time step 1/4 has `int((1/10)/(1/4)) = 0` loop
iterations, so `encode_song` emits *no* token for it at all — in particular
not the onset-only encoding the claim predicts. -/
theorem claim_C3_counterexample :
    encode_song_tokens [Event.mk PitchOrRest.rest (1/10)] (1/4) = [] ∧
      encode_song_tokens [Event.mk PitchOrRest.rest (1/10)] (1/4) ≠
        [onsetSymbol (Event.mk PitchOrRest.rest (1/10))] := by
  have hsteps : stepsNat (Event.mk PitchOrRest.rest (1/10)) (1/4) = 0 := by
    rw [stepsNat]
    norm_num [pytrunc]
    decide
  have h : encode_song_tokens [Event.mk PitchOrRest.rest (1/10)] (1/4) = [] := by
    rw [encode_song_tokens_eq_bind, List.flatMap_cons, List.flatMap_nil, List.append_nil,
      encodeEvent_eq_cases, if_pos hsteps]
  refine ⟨h, ?_⟩
  rw [h]
  simp

/-- Claim C3 (amended): for every event whose truncated step count
`int(duration / time_step)` is at least 1, `encode_song` emits exactly one
onset token followed by `int(duration / time_step) - 1` hold tokens
(truncating integer division, no rounding); an event whose step count
truncates to 0 emits no tokens at all. -/
theorem claim_C3_onset_then_holds (e : Event) (time_step : ℚ)
    (h : 1 ≤ stepsNat e time_step) :
    encodeEvent time_step e =
      onsetSymbol e :: List.replicate (stepsNat e time_step - 1) Token.hold := by
  rw [encodeEvent_eq_cases, if_neg (by omega)]

/-- Witness for the amended C3 at the eighth note MIDI 62 (two time steps:
one onset token, one hold token). -/
theorem claim_C3_onset_then_holds_witness :
    1 ≤ stepsNat (Event.mk (PitchOrRest.note 62) (1/2)) (1/4) ∧
      encodeEvent (1/4) (Event.mk (PitchOrRest.note 62) (1/2)) =
        onsetSymbol (Event.mk (PitchOrRest.note 62) (1/2)) ::
          List.replicate (stepsNat (Event.mk (PitchOrRest.note 62) (1/2)) (1/4) - 1)
            Token.hold := by
  have h : 1 ≤ stepsNat (Event.mk (PitchOrRest.note 62) (1/2)) (1/4) := by
    have h2 : pytrunc ((1/2 : ℚ) / (1/4)) = 2 := by norm_num [pytrunc]
    rw [stepsNat]
    show 1 ≤ (pytrunc ((1/2 : ℚ) / (1/4))).toNat
    rw [h2]
    decide
  exact ⟨h, claim_C3_onset_then_holds _ _ h⟩

/-- Claim C10: with the default time step 0.25 the encoding of a song that
passed the duration filter is exact: every whitelisted duration is a
positive integer multiple of 0.25 whose quotient survives `int()` truncation
unchanged, each event emits exactly `duration / 0.25 ≥ 1` tokens, and the
total token count of the encoded song equals the song's total quarter length
divided by 0.25 — no silent shortening is possible for filtered songs. -/
theorem claim_C10_filtered_encoding_exact :
    (∀ d ∈ ACCEPTABLE_DURATIONS, ∃ k : ℕ, 1 ≤ k ∧ d = (k : ℚ) * (1/4) ∧
      pytrunc (d / (1/4)) = (k : ℤ)) ∧
    ∀ song : List Event, (∀ e ∈ song, e.duration ∈ ACCEPTABLE_DURATIONS) →
      (∀ e ∈ song, 1 ≤ (encodeEvent (1/4) e).length ∧
        ((encodeEvent (1/4) e).length : ℚ) = e.duration / (1/4)) ∧
      ((encode_song_tokens song (1/4)).length : ℚ) =
        (song.map Event.duration).sum / (1/4) := by
  refine ⟨whitelist_step_count, ?_⟩
  intro song hall
  have hev : ∀ e ∈ song, 1 ≤ (encodeEvent (1/4) e).length ∧
      ((encodeEvent (1/4) e).length : ℚ) = e.duration / (1/4) := by
    intro e he
    obtain ⟨h1, h2⟩ := whitelist_stepsNat_exact e (hall e he)
    rw [encodeEvent_length]
    exact ⟨h1, h2⟩
  refine ⟨hev, ?_⟩
  clear hall
  induction song with
  | nil => simp [encode_song_tokens]
  | cons e rest ih =>
    have he := (hev e (List.mem_cons_self e rest)).2
    have hr := ih (fun x hx => hev x (List.mem_cons_of_mem e hx))
    rw [encode_song_tokens_eq_bind, List.flatMap_cons, List.length_append, List.map_cons,
      List.sum_cons, add_div, Nat.cast_add, he, ← encode_song_tokens_eq_bind, hr]

lemma onsetSymbol_ne_hold (e : Event) : onsetSymbol e ≠ Token.hold := by
  rw [onsetSymbol]
  cases e.pitch <;> simp

lemma m21Event_onsetSymbol (e : Event) (q : ℚ) :
    m21Event (onsetSymbol e) q = some (Event.mk e.pitch q) := by
  rw [onsetSymbol]
  cases h : e.pitch <;> simp [m21Event, h]

lemma saveMelodyGo_holds (t : ℚ) (s : Token) (m : ℕ) :
    ∀ (c : ℕ) (rest : List Token), rest ≠ [] →
      saveMelodyGo t (some s) c (List.replicate m Token.hold ++ rest) =
        saveMelodyGo t (some s) (c + m) rest := by
  induction m with
  | zero => intro c rest _; simp
  | succ m ih =>
    intro c rest h
    rw [List.replicate_succ, List.cons_append, saveMelodyGo, if_neg]
    · rw [ih (c + 1) rest h]
      have hc : c + 1 + m = c + (m + 1) := by omega
      rw [hc]
    · simp [h]

lemma saveMelodyGo_holds_end (t : ℚ) (s : Token) (m : ℕ) (h : 1 ≤ m) :
    saveMelodyGo t (some s) 1 (List.replicate m Token.hold) =
      (m21Event s (t * (m : ℚ))).map (fun ev => [ev]) := by
  have hrep : List.replicate m Token.hold =
      List.replicate (m - 1) Token.hold ++ [Token.hold] := by
    rw [← List.replicate_succ']
    congr 1
    omega
  rw [hrep, saveMelodyGo_holds t s (m - 1) 1 [Token.hold] (by simp)]
  have hc : 1 + (m - 1) = m := by omega
  rw [hc, saveMelodyGo, if_pos (Or.inr rfl)]
  cases hm : m21Event s (t * (m : ℚ)) with
  | none => simp
  | some ev => simp [saveMelodyGo]

lemma saveMelodyGo_blocks (t : ℚ) :
    ∀ (evs : List Event) (e : Event), (∀ x ∈ e :: evs, 1 ≤ stepsNat x t) →
      saveMelodyGo t (some (onsetSymbol e)) 1
          (List.replicate (stepsNat e t - 1) Token.hold ++ encode_song_tokens evs t) =
        some (decodeExpected t (e :: evs)) := by
  intro evs
  induction evs with
  | nil =>
    intro e hall
    have he : 1 ≤ stepsNat e t := hall e (List.mem_cons_self e [])
    rw [encode_song_tokens, List.foldl_nil, List.append_nil]
    by_cases h2 : 2 ≤ stepsNat e t
    · rw [saveMelodyGo_holds_end t (onsetSymbol e) (stepsNat e t - 1) (by omega)]
      rw [m21Event_onsetSymbol]
      rw [decodeExpected, if_pos h2]
      rfl
    · have h1 : stepsNat e t = 1 := by omega
      rw [h1]
      rw [decodeExpected, if_neg (by omega)]
      simp [saveMelodyGo]
  | cons e2 rest ih =>
    intro e hall
    have he : 1 ≤ stepsNat e t := hall e (List.mem_cons_self e (e2 :: rest))
    have he2 : 1 ≤ stepsNat e2 t :=
      hall e2 (List.mem_cons_of_mem e (List.mem_cons_self e2 rest))
    have henc : encode_song_tokens (e2 :: rest) t =
        onsetSymbol e2 ::
          (List.replicate (stepsNat e2 t - 1) Token.hold ++ encode_song_tokens rest t) := by
      rw [encode_song_tokens_eq_bind, List.flatMap_cons, encodeEvent_eq_cases,
        if_neg (by omega), ← encode_song_tokens_eq_bind, List.cons_append]
    rw [henc, saveMelodyGo_holds t (onsetSymbol e) (stepsNat e t - 1) 1 _ (by simp)]
    have hc : 1 + (stepsNat e t - 1) = stepsNat e t := by omega
    rw [hc, saveMelodyGo, if_pos (Or.inl (onsetSymbol_ne_hold e2)), m21Event_onsetSymbol]
    rw [ih e2 (fun x hx => hall x (List.mem_cons_of_mem e hx))]
    rw [decodeExpected]
    rfl

/-- Claim C1 counterexample: a middle-C note of quarter length 1 encodes (at
time step 0.25) to one onset and three hold tokens; the claim predicts the
renderer rebuilds a note of quarter length 0.25 * 4 = 1, but `save_melody`
flushes the final event while scanning its last hold token, before counting
it, and produces quarter length 0.75. -/
theorem claim_C1_counterexample :
    save_melody (encode_song_tokens [Event.mk (PitchOrRest.note 60) 1] (1/4)) (1/4) =
        some [Event.mk (PitchOrRest.note 60) (3/4)] ∧
      save_melody (encode_song_tokens [Event.mk (PitchOrRest.note 60) 1] (1/4)) (1/4) ≠
        some [Event.mk (PitchOrRest.note 60) 1] := by
  have hsteps : stepsNat (Event.mk (PitchOrRest.note 60) 1) (1/4) = 4 := by
    have h4 : pytrunc ((1 : ℚ) / (1/4)) = 4 := by norm_num [pytrunc]
    rw [stepsNat]
    show (pytrunc ((1 : ℚ) / (1/4))).toNat = 4
    rw [h4]
    rfl
  have henc : encode_song_tokens [Event.mk (PitchOrRest.note 60) 1] (1/4) =
      [Token.note 60, Token.hold, Token.hold, Token.hold] := by
    rw [encode_song_tokens_eq_bind, List.flatMap_cons, List.flatMap_nil, List.append_nil,
      encodeEvent_eq_cases, if_neg (by rw [hsteps]; omega), hsteps]
    rfl
  have hdec : save_melody (encode_song_tokens [Event.mk (PitchOrRest.note 60) 1] (1/4))
      (1/4) = some [Event.mk (PitchOrRest.note 60) (3/4)] := by
    rw [henc]
    simp [save_melody, saveMelodyGo, m21Event]
    norm_num
  refine ⟨hdec, ?_⟩
  rw [hdec]
  simp only [ne_eq, Option.some.injEq, List.cons.injEq, Event.mk.injEq]
  intro h
  exact absurd h.1.2 (by norm_num)

/-- Claim C1 (amended): encoding a song and rendering the token stream with
`save_melody` reconstructs every event except the last exactly — same
pitch-or-rest, same order, quarter length `step_duration * steps` where
`steps = int(duration / time_step) ≥ 1` — but the final event is
reconstructed one time step short (`step_duration * (steps - 1)`) when it
spans at least two steps and is dropped entirely when it spans exactly one
step, because the renderer flushes the pending event upon reading the last
token instead of after it. -/
theorem claim_C1_roundtrip (song : List Event) (t : ℚ)
    (h : ∀ e ∈ song, 1 ≤ stepsNat e t) :
    save_melody (encode_song_tokens song t) t = some (decodeExpected t song) := by
  cases song with
  | nil => rfl
  | cons e evs =>
    have he : 1 ≤ stepsNat e t := h e (List.mem_cons_self e evs)
    have henc : encode_song_tokens (e :: evs) t =
        onsetSymbol e ::
          (List.replicate (stepsNat e t - 1) Token.hold ++ encode_song_tokens evs t) := by
      rw [encode_song_tokens_eq_bind, List.flatMap_cons, encodeEvent_eq_cases,
        if_neg (by omega), ← encode_song_tokens_eq_bind, List.cons_append]
    rw [henc, save_melody, saveMelodyGo,
      if_pos (Or.inl (onsetSymbol_ne_hold e))]
    exact saveMelodyGo_blocks t evs e h

/-- Witness for the amended C1 at the two-event song (middle C for a quarter
note, then an eighth rest): the first event round-trips exactly, the final
rest comes back one step short. -/
theorem claim_C1_roundtrip_witness :
    (∀ e ∈ [Event.mk (PitchOrRest.note 60) 1, Event.mk PitchOrRest.rest (1/2)],
        1 ≤ stepsNat e (1/4)) ∧
      save_melody
          (encode_song_tokens
            [Event.mk (PitchOrRest.note 60) 1, Event.mk PitchOrRest.rest (1/2)] (1/4))
          (1/4) =
        some (decodeExpected (1/4)
          [Event.mk (PitchOrRest.note 60) 1, Event.mk PitchOrRest.rest (1/2)]) := by
  have h : ∀ e ∈ [Event.mk (PitchOrRest.note 60) 1, Event.mk PitchOrRest.rest (1/2)],
      1 ≤ stepsNat e (1/4) := by
    intro e he
    rcases List.mem_cons.mp he with rfl | he2
    · have h4 : pytrunc ((1 : ℚ) / (1/4)) = 4 := by norm_num [pytrunc]
      rw [stepsNat]
      show 1 ≤ (pytrunc ((1 : ℚ) / (1/4))).toNat
      rw [h4]
      decide
    · rcases List.mem_singleton.mp he2 with rfl
      have h2 : pytrunc ((1/2 : ℚ) / (1/4)) = 2 := by norm_num [pytrunc]
      rw [stepsNat]
      show 1 ≤ (pytrunc ((1/2 : ℚ) / (1/4))).toNat
      rw [h2]
      decide
  exact ⟨h, claim_C1_roundtrip _ _ h⟩

lemma seedToInts_replicate (m : List (Token × ℕ)) (tkn : Token) (v : ℕ)
    (h : dictGet m tkn = some v) :
    ∀ n, seedToInts m (List.replicate n tkn) = Except.ok (List.replicate n v) := by
  intro n
  induction n with
  | zero => rfl
  | succ n ih =>
    rw [List.replicate_succ, seedToInts, h, ih]
    rfl

/-- Claim C2: whenever `generate_melody` returns, the returned melody is the
user's seed followed by at most `num_steps` generated tokens, and none of the
generated tokens is the boundary marker "/": the loop runs at most
`num_steps` sampling iterations and, on sampling "/", exits before appending
that token or any further token. -/
theorem claim_C2_step_budget_boundary_stop
    (mappings : List (Token × ℕ)) (predict : List ℕ → ℕ) (seed : List Token)
    (num_steps max_sequence_length : ℕ) (out : List Token)
    (h : generate_melody mappings predict seed num_steps max_sequence_length =
      Except.ok out) :
    ∃ extra, out = seed ++ extra ∧ extra.length ≤ num_steps ∧
      Token.boundary ∉ extra := by
  rw [generate_melody] at h
  cases hsi : seedToInts mappings (start_symbols ++ seed) with
  | error e =>
    rw [hsi] at h
    exact absurd h (by simp)
  | ok seedInts =>
    rw [hsi] at h
    exact genLoop_ok_structure mappings predict max_sequence_length num_steps
      seedInts seed out h

/-- Witness for C2: with a vocabulary mapping "/" to 0 and a model that
always samples id 0, generation from the empty seed stops immediately on the
boundary token and returns the empty melody. -/
theorem claim_C2_witness :
    generate_melody [(Token.boundary, 0)] (fun _ => 0) [] 2 1 = Except.ok [] ∧
      ∃ extra, ([] : List Token) = [] ++ extra ∧ extra.length ≤ 2 ∧
        Token.boundary ∉ extra := by
  have hgen : generate_melody [(Token.boundary, 0)] (fun _ => 0) [] 2 1 =
      Except.ok [] := by
    rw [generate_melody]
    have hsi : seedToInts [(Token.boundary, 0)] (start_symbols ++ []) =
        Except.ok (List.replicate SEQUENCE_LENGTH 0) := by
      rw [List.append_nil, start_symbols]
      exact seedToInts_replicate [(Token.boundary, 0)] Token.boundary 0 rfl SEQUENCE_LENGTH
    rw [hsi]
    show genLoop [(Token.boundary, 0)] (fun _ => 0) 1 (1 + 1)
      (List.replicate SEQUENCE_LENGTH 0) [] = Except.ok []
    rw [genLoop]
    simp [revLookup]
  exact ⟨hgen, claim_C2_step_budget_boundary_stop _ _ _ _ _ _ hgen⟩

lemma create_single_file_dataset_foldl (files : List (List Char)) (n : ℕ) :
    files.foldl (fun songs song => songs ++ song ++ [' '] ++ new_song_delimeter n) [] =
      (files.map (fun s => s ++ [' '] ++ new_song_delimeter n)).flatten := by
  suffices h : ∀ acc : List Char,
      files.foldl (fun songs song => songs ++ song ++ [' '] ++ new_song_delimeter n) acc =
        acc ++ (files.map (fun s => s ++ [' '] ++ new_song_delimeter n)).flatten by
    simpa using h []
  induction files with
  | nil => simp
  | cons f rest ih =>
    intro acc
    rw [List.foldl_cons, ih, List.map_cons, List.flatten_cons]
    simp [List.append_assoc]

lemma new_song_delimeter_ends_space (n : ℕ) (h : 1 ≤ n) :
    ∃ u, new_song_delimeter n = u ++ [' '] := by
  induction n with
  | zero => omega
  | succ m ih =>
    rw [new_song_delimeter, List.replicate_succ, List.flatten_cons]
    cases m with
    | zero => exact ⟨['/'], rfl⟩
    | succ k =>
      obtain ⟨u, hu⟩ := ih (by omega)
      rw [new_song_delimeter] at hu
      rw [hu, ← List.append_assoc]
      exact ⟨['/', ' '] ++ u, rfl⟩

lemma song_block_ends_space (s : List Char) (n : ℕ) :
    ∃ w, s ++ [' '] ++ new_song_delimeter n = w ++ [' '] := by
  cases n with
  | zero => exact ⟨s, by simp [new_song_delimeter]⟩
  | succ m =>
    obtain ⟨u, hu⟩ := new_song_delimeter_ends_space (m + 1) (by omega)
    rw [hu, ← List.append_assoc]
    exact ⟨s ++ [' '] ++ u, rfl⟩

/-- Claim C9: `create_single_file_dataset` returns the concatenation, over
the loaded song files, of the song followed by a space and the boundary
block "/ " repeated `sequence_length` times, with exactly the final
character — the trailing space after the last boundary token — removed
(appending one space recovers the undropped concatenation). -/
theorem claim_C9_merged_dataset (files : List (List Char)) (sequence_length : ℕ)
    (h : files ≠ []) :
    create_single_file_dataset files sequence_length ++ [' '] =
      (files.map (fun s => s ++ [' '] ++ new_song_delimeter sequence_length)).flatten := by
  rw [create_single_file_dataset, create_single_file_dataset_foldl]
  obtain ⟨L, b, rfl⟩ := (List.eq_nil_or_concat files).resolve_left h
  rw [List.concat_eq_append]
  have hmap : ((L ++ [b]).map
      (fun s => s ++ [' '] ++ new_song_delimeter sequence_length)).flatten =
      (L.map (fun s => s ++ [' '] ++ new_song_delimeter sequence_length)).flatten ++
        (b ++ [' '] ++ new_song_delimeter sequence_length) := by
    simp
  obtain ⟨w, hw⟩ := song_block_ends_space b sequence_length
  rw [hmap, hw, ← List.append_assoc, List.dropLast_concat]

/-- Witness for C9 at a single one-token song file "60" with window length
1: the merged dataset is "60 /" and restoring the dropped trailing space
gives "60 / ". -/
theorem claim_C9_witness :
    ([['6', '0']] : List (List Char)) ≠ [] ∧
      create_single_file_dataset [['6', '0']] 1 ++ [' '] =
        ([['6', '0']].map (fun s => s ++ [' '] ++ new_song_delimeter 1)).flatten :=
  ⟨by simp, claim_C9_merged_dataset _ _ (by simp)⟩

lemma sum_map_div (l : List ℝ) (b : ℝ) :
    (l.map (fun x => x / b)).sum = l.sum / b := by
  induction l with
  | nil => simp
  | cons x rest ih => simp [ih, add_div]

/-- Claim C7: on a strictly positive probability vector and temperature
τ > 0, `_sample_with_temperature` computes exactly the distribution
`softmax(log(p)/τ)`, that distribution renormalizes to sum 1, and the drawn
index (for any draw satisfying the `np.random.choice` range guarantee) lies
in `[0, len(p))`. -/
theorem claim_C7_temperature_sampling (probabilities : List ℝ) (temperature : ℝ)
    (randChoice : List ℝ → ℕ)
    (hne : probabilities ≠ []) (hpos : ∀ p ∈ probabilities, 0 < p)
    (htemp : 0 < temperature)
    (hrand : ∀ l : List ℝ, l ≠ [] → randChoice l < l.length) :
    tempDist probabilities temperature =
        softmaxSpec (probabilities.map (fun p => Real.log p / temperature)) ∧
      (tempDist probabilities temperature).sum = 1 ∧
      sample_with_temperature probabilities temperature randChoice <
        probabilities.length := by
  have hlen : (tempDist probabilities temperature).length = probabilities.length := by
    simp [tempDist]
  have hsum : (tempDist probabilities temperature).sum = 1 := by
    rw [tempDist]
    have hS : 0 < ((probabilities.map (fun p => Real.log p / temperature)).map
        Real.exp).sum := by
      apply List.sum_pos
      · intro x hx
        obtain ⟨y, _, rfl⟩ := List.mem_map.mp hx
        exact Real.exp_pos y
      · simp [hne]
    rw [sum_map_div]
    exact div_self (ne_of_gt hS)
  refine ⟨?_, hsum, ?_⟩
  · rw [tempDist, softmaxSpec, List.map_map]
    rfl
  · rw [sample_with_temperature, ← hlen]
    apply hrand
    intro hc
    rw [hc] at hlen
    exact hne (List.length_eq_zero.mp hlen.symm)

/-- Witness for C7 at the uniform two-entry vector with temperature 1 and a
draw that always returns index 0. -/
theorem claim_C7_witness :
    (tempDist [1, 1] 1).sum = 1 ∧
      sample_with_temperature [1, 1] 1 (fun _ => 0) < ([1, 1] : List ℝ).length := by
  have h := claim_C7_temperature_sampling [1, 1] 1 (fun _ => 0) (by simp)
    (by
      intro p hp
      simp at hp
      rw [hp]
      norm_num)
    one_pos
    (fun l hl => List.length_pos.mpr hl)
  exact ⟨h.2.1, h.2.2⟩

/-- Witness for C10 at the one-note song holding middle C for a quarter
note: 4 tokens, total duration 1, and 1 / 0.25 = 4. -/
theorem claim_C10_witness :
    (∀ e ∈ [Event.mk (PitchOrRest.note 60) 1], e.duration ∈ ACCEPTABLE_DURATIONS) ∧
      ((encode_song_tokens [Event.mk (PitchOrRest.note 60) 1] (1/4)).length : ℚ) =
        (([Event.mk (PitchOrRest.note 60) 1].map Event.duration).sum) / (1/4) := by
  have hmem : ∀ e ∈ [Event.mk (PitchOrRest.note 60) 1],
      e.duration ∈ ACCEPTABLE_DURATIONS := by
    intro e he
    simp only [List.mem_singleton] at he
    subst he
    show (1 : ℚ) ∈ ACCEPTABLE_DURATIONS
    norm_num [ACCEPTABLE_DURATIONS]
  exact ⟨hmem, (claim_C10_filtered_encoding_exact.2 _ hmem).2⟩

end MelodyGen
